import Mathlib

/-
Verification of the PLL Configuration Scanner of
litex_boards/targets/antmicro_lpddr4_test_board.py (the `--scan-pll` branch of
`main`, lines 196-231, together with `_CRG.__init__`, lines 30-46).

Frequencies are Python floats in the source; the spec treats them as positive
real numbers, and we embed them as rationals so every arithmetic step of the
scanner (candidate generation, the 1.001 gap tolerance of the report) is exact
and decidable.  The external PLL constraint solver (the litex S7PLL, not part of
this repository) is a parameter: a function from the clock-domain request built
by `_CRG` to an outcome that is either success, a Python `ValueError` carrying a
message, or an exception of any other class.
-/

namespace PllScan

/-- Message fragment tested by the scanner: the source checks
`"No PLL config found" not in str(e)` before re-raising (line 217). -/
def noPllMsg : String := "No PLL config found"

/-- Boolean test that `needle` occurs at the head of `hay` (character lists). -/
def listIsHeadOf : List Char → List Char → Bool
  | [], _ => true
  | _ :: _, [] => false
  | a :: as, b :: bs => a == b && listIsHeadOf as bs

/-- Boolean test that `needle` occurs somewhere inside `hay` (character lists). -/
def listOccursIn (needle : List Char) : List Char → Bool
  | [] => needle.isEmpty
  | b :: bs => listIsHeadOf needle (b :: bs) || listOccursIn needle bs

/-- Substring operator of Python: `needle in hay` on strings. -/
def occursIn (needle hay : String) : Bool := listOccursIn needle.data hay.data

/-- Clock-domain set handed to the PLL: one reference input frequency and the
ordered list of requested output frequencies.  Mirrors what `_CRG.__init__`
registers on the `S7PLL` instance (lines 40-44). -/
structure CrgRequest where
  refFreq : ℚ
  outputs : List ℚ
deriving DecidableEq

/-- Default of the `--iodelay-clk-freq` argument (line 175). -/
def iodelay_clk_freq_default : ℚ := 200000000

/-- Embedding of `_CRG.__init__` (lines 30-46): the reference clock `clk100` is
registered at 100e6 and four output clocks are created, in order `cd_sys` at
`sys_clk_freq`, `cd_sys2x` at `2*sys_clk_freq`, `cd_sys8x` at `8*sys_clk_freq`,
and `cd_idelay` at `iodelay_clk_freq`. -/
def crgRequest (sys_clk_freq iodelay_clk_freq : ℚ) : CrgRequest :=
  { refFreq  := 100000000
    outputs  := [sys_clk_freq, 2 * sys_clk_freq, 8 * sys_clk_freq, iodelay_clk_freq] }

/-- Outcome of `crg.finalize()` for one candidate, as seen by the scanner
`try` block: success, a `ValueError` with a message, or an exception of any
other class (also carrying a message, unused by the scanner). -/
inductive PllOutcome where
  | ok
  | valueError (msg : String)
  | otherError (msg : String)
deriving DecidableEq

/-- Error that escapes the scan loop: a re-raised `ValueError` whose message
lacks the distinguished fragment, or an exception of another class. -/
inductive ScanError where
  | valueErr (msg : String)
  | otherErr (msg : String)
deriving DecidableEq

instance {ε α : Type} [DecidableEq ε] [DecidableEq α] : DecidableEq (Except ε α) := fun x y =>
  match x, y with
  | .ok a, .ok b =>
    if h : a = b then .isTrue (by rw [h]) else .isFalse (by intro hc; cases hc; exact h rfl)
  | .error a, .error b =>
    if h : a = b then .isTrue (by rw [h]) else .isFalse (by intro hc; cases hc; exact h rfl)
  | .ok _, .error _ => .isFalse (by intro hc; cases hc)
  | .error _, .ok _ => .isFalse (by intro hc; cases hc)

/-- Whether an outcome counts as success (the candidate is appended to `found`). -/
def outcomeOk : PllOutcome → Bool
  | .ok => true
  | _   => false

/-- Whether an outcome is handled without aborting the scan: success, or a
`ValueError` whose message contains the distinguished fragment (line 217). -/
def expectedOutcome : PllOutcome → Bool
  | .ok             => true
  | .valueError msg => occursIn noPllMsg msg
  | .otherError _   => false

/-- One iteration of the scan loop (lines 207-222): build a fresh `_CRG` request
for the candidate frequency, run the validator, record `true` on success,
record `false` on a `ValueError` containing "No PLL config found", and abort
with the escaping error otherwise. -/
def scanStep (pll : CrgRequest → PllOutcome) (iod freq : ℚ) : Except ScanError Bool :=
  match pll (crgRequest freq iod) with
  | .ok             => .ok true
  | .valueError msg =>
      if occursIn noPllMsg msg then .ok false else .error (.valueErr msg)
  | .otherError msg => .error (.otherErr msg)

/-- Candidate frequencies of the sweep (lines 205-206):
`fmin + i*fstep` for `i` in `range(math.floor((fmax - fmin) / fstep))`.
`Int.toNat` matches the Python `range`, which is empty for a negative bound;
`Rat.floor` is the computable floor, equal to `⌊⌋` by `Rat.floor_def`. -/
def candidates (fmin fmax fstep : ℚ) : List ℚ :=
  (List.range ((fmax - fmin) / fstep).floor.toNat).map fun i : ℕ => fmin + (i : ℚ) * fstep

/-- The scan loop over a list of candidate frequencies: each candidate is tried
exactly once, in order; an escaping error aborts the whole loop (no report is
produced), otherwise the ordered (frequency, success) pairs are returned. -/
def scanList (pll : CrgRequest → PllOutcome) (iod : ℚ) :
    List ℚ → Except ScanError (List (ℚ × Bool))
  | [] => .ok []
  | f :: fs =>
    match scanStep pll iod f with
    | .error e => .error e
    | .ok b =>
      match scanList pll iod fs with
      | .error e => .error e
      | .ok rest => .ok ((f, b) :: rest)

/-- Frequencies recorded as successes, in order: the `found` list of the source. -/
def foundOf (results : List (ℚ × Bool)) : List ℚ :=
  (results.filter fun p => p.2).map Prod.fst

/-- Grouping of the report loop (lines 224-229): a separator is printed before
`freq` when `freq - prev > fstep * 1.001`, so the bands are the maximal
segments of `found` in which consecutive gaps stay within the tolerance.
The decision for each element depends only on its immediate predecessor,
exactly as the `prev` variable of the source. -/
def groupBands (fstep : ℚ) : List ℚ → List (List ℚ)
  | [] => []
  | [f] => [[f]]
  | f :: g :: fs =>
    match groupBands fstep (g :: fs) with
    | [] => [[f]]
    | b :: bs =>
      if fstep * 1.001 < g - f then [f] :: b :: bs else (f :: b) :: bs

/-- Outcome of a completed scan: the ordered per-candidate results and the
grouped bands of the printed report. -/
structure ScanReport where
  results : List (ℚ × Bool)
  bands   : List (List ℚ)
deriving DecidableEq

/-- The whole `--scan-pll` branch (lines 203-231): generate the candidates,
run the loop, and on normal completion group the successes into bands. -/
def runScan (pll : CrgRequest → PllOutcome) (iod fmin fmax fstep : ℚ) :
    Except ScanError ScanReport :=
  match scanList pll iod (candidates fmin fmax fstep) with
  | .error e => .error e
  | .ok res  => .ok { results := res, bands := groupBands fstep (foundOf res) }

/-- Process exit code: `sys.exit(0)` on completion (line 231), 1 when an
uncaught exception escapes `main`. -/
def exitCode : Except ScanError ScanReport → Nat
  | .ok _    => 0
  | .error _ => 1

/-- Validator model stipulated by the scenario of the spec: the PLL accepts a
configuration iff the swept system-clock output lies in `[lo, hi]`, and rejects
with the distinguished "no configuration found" condition otherwise. -/
def intervalPll (lo hi : ℚ) (req : CrgRequest) : PllOutcome :=
  match req.outputs with
  | sys :: _ => if lo ≤ sys ∧ sys ≤ hi then .ok else .valueError noPllMsg
  | []       => .valueError noPllMsg

/-- Validator model that accepts every request. -/
def pllAllOk : CrgRequest → PllOutcome := fun _ => .ok

/-- Message of the fatal validator model. -/
def boomMsg : String := "boom"

/-- Validator model that always fails with a non-`ValueError` exception. -/
def pllFatal : CrgRequest → PllOutcome := fun _ => .otherError boomMsg

/-- Validator model that rejects exactly the request whose system clock is 0,
with the distinguished condition, and accepts everything else. -/
def pllRejectZero : CrgRequest → PllOutcome := fun req =>
  match req.outputs with
  | sys :: _ => if sys = 0 then .valueError noPllMsg else .ok
  | []       => .ok

/-- Bridge between the computable floor used by `candidates` and the
mathematical floor `⌊⌋`. -/
theorem ratFloor_eq (q : ℚ) : q.floor = ⌊q⌋ := by
  rw [Rat.floor_def', Rat.floor_def]

/-- An expected outcome makes `scanStep` return the recorded boolean without
aborting. -/
theorem scanStep_eq_ok (pll : CrgRequest → PllOutcome) (iod f : ℚ)
    (h : expectedOutcome (pll (crgRequest f iod)) = true) :
    scanStep pll iod f = Except.ok (outcomeOk (pll (crgRequest f iod))) := by
  cases hp : pll (crgRequest f iod) with
  | ok => simp [scanStep, outcomeOk, hp]
  | valueError msg =>
      rw [hp] at h
      simp only [expectedOutcome] at h
      simp [scanStep, outcomeOk, hp, h]
  | otherError msg =>
      rw [hp] at h
      simp only [expectedOutcome] at h
      exact absurd h (by simp)

/-- The boolean recorded by a non-aborting `scanStep` is exactly the success
bit of the validator outcome. -/
theorem scanStep_ok_elim (pll : CrgRequest → PllOutcome) (iod f : ℚ) (b : Bool)
    (h : scanStep pll iod f = Except.ok b) :
    b = outcomeOk (pll (crgRequest f iod)) := by
  cases hp : pll (crgRequest f iod) with
  | ok =>
      simp [scanStep, hp] at h
      simp [outcomeOk, h]
  | valueError msg =>
      cases hc : occursIn noPllMsg msg with
      | true =>
          simp [scanStep, hp, hc] at h
          simp [outcomeOk, h]
      | false => simp [scanStep, hp, hc] at h
  | otherError msg => simp [scanStep, hp] at h

/-- The scan step aborts exactly on the unexpected outcomes: a `ValueError`
without the distinguished fragment or an exception of another class. -/
theorem scanStep_error_iff (pll : CrgRequest → PllOutcome) (iod f : ℚ) :
    (∃ e, scanStep pll iod f = Except.error e) ↔
      expectedOutcome (pll (crgRequest f iod)) = false := by
  cases hp : pll (crgRequest f iod) with
  | ok => simp [scanStep, expectedOutcome, hp]
  | valueError msg =>
      cases hc : occursIn noPllMsg msg with
      | true => simp [scanStep, expectedOutcome, hp, hc]
      | false => simp [scanStep, expectedOutcome, hp, hc]
  | otherError msg => simp [scanStep, expectedOutcome, hp]

/-- When every candidate outcome is expected, the loop completes and records
exactly the success bit of each candidate, in order. -/
theorem scanList_ok_of_expected (pll : CrgRequest → PllOutcome) (iod : ℚ) :
    ∀ l : List ℚ, (∀ f ∈ l, expectedOutcome (pll (crgRequest f iod)) = true) →
      scanList pll iod l = Except.ok (l.map fun f => (f, outcomeOk (pll (crgRequest f iod))))
  | [], _ => rfl
  | f :: fs, h => by
      have hf := h f (List.mem_cons_self f fs)
      have hrest := scanList_ok_of_expected pll iod fs
        (fun g hg => h g (List.mem_cons_of_mem f hg))
      simp [scanList, scanStep_eq_ok pll iod f hf, hrest]

/-- A completed loop recorded exactly the per-candidate success bits, in order. -/
theorem scanList_ok_elim (pll : CrgRequest → PllOutcome) (iod : ℚ) :
    ∀ (l : List ℚ) (res : List (ℚ × Bool)), scanList pll iod l = Except.ok res →
      res = l.map fun f => (f, outcomeOk (pll (crgRequest f iod)))
  | [], res, h => by simpa [scanList] using (Except.ok.inj h).symm
  | f :: fs, res, h => by
      rw [scanList] at h
      cases hs : scanStep pll iod f with
      | error e => rw [hs] at h; exact absurd h (by simp)
      | ok b =>
          rw [hs] at h
          cases hr : scanList pll iod fs with
          | error e => rw [hr] at h; exact absurd h (by simp)
          | ok rest =>
              rw [hr] at h
              have hrest := scanList_ok_elim pll iod fs rest hr
              have hb := scanStep_ok_elim pll iod f b hs
              simp only [List.map_cons]
              rw [← hrest, ← hb]
              exact (Except.ok.inj h).symm

/-- A fatal step aborts the whole loop with exactly the escaping error,
provided all earlier candidates were expected. -/
theorem scanList_error_append (pll : CrgRequest → PllOutcome) (iod : ℚ) :
    ∀ (l1 : List ℚ) (f : ℚ) (l2 : List ℚ) (e : ScanError),
      (∀ g ∈ l1, expectedOutcome (pll (crgRequest g iod)) = true) →
      scanStep pll iod f = Except.error e →
      scanList pll iod (l1 ++ f :: l2) = Except.error e
  | [], f, l2, e, _, hf => by simp [scanList, hf]
  | g :: l1, f, l2, e, h, hf => by
      have hg := h g (List.mem_cons_self g l1)
      have hrest := scanList_error_append pll iod l1 f l2 e
        (fun x hx => h x (List.mem_cons_of_mem g hx)) hf
      simp [scanList, scanStep_eq_ok pll iod g hg, hrest]

/-- The bands of a nonempty `found` list form a nonempty list whose first band
begins with the first successful frequency. -/
theorem groupBands_cons (fstep g : ℚ) :
    ∀ fs : List ℚ, ∃ b bs, groupBands fstep (g :: fs) = (g :: b) :: bs
  | [] => ⟨[], [], rfl⟩
  | g1 :: fs1 => by
      obtain ⟨b, bs, hb⟩ := groupBands_cons fstep g1 fs1
      by_cases hgap : fstep * 1.001 < g1 - g
      · exact ⟨[], (g1 :: b) :: bs, by simp [groupBands, hb, hgap]⟩
      · exact ⟨g1 :: b, bs, by simp [groupBands, hb, hgap]⟩

/-- Concatenating the report bands recovers the successful frequencies, in
order: the bands partition `found`. -/
theorem groupBands_flatten (fstep : ℚ) :
    ∀ l : List ℚ, (groupBands fstep l).flatten = l
  | [] => rfl
  | [_] => rfl
  | f :: g :: fs => by
      obtain ⟨b, bs, hb⟩ := groupBands_cons fstep g fs
      have hj := groupBands_flatten fstep (g :: fs)
      rw [hb] at hj
      by_cases hgap : fstep * 1.001 < g - f
      · simp only [groupBands, hb, hgap, if_true, List.flatten_cons] at hj ⊢
        simp [hj]
      · simp only [groupBands, hb, hgap, if_false, List.flatten_cons] at hj ⊢
        simpa using hj

/-- Every report band is nonempty. -/
theorem groupBands_ne_nil (fstep : ℚ) :
    ∀ l : List ℚ, ∀ b ∈ groupBands fstep l, b ≠ []
  | [], b, hb => absurd hb (by simp [groupBands])
  | [f], b, hb => by
      simp [groupBands] at hb
      simp [hb]
  | f :: g :: fs, b, hb => by
      obtain ⟨b1, bs, h1⟩ := groupBands_cons fstep g fs
      have ih := groupBands_ne_nil fstep (g :: fs)
      rw [h1] at ih
      by_cases hgap : fstep * 1.001 < g - f
      · simp only [groupBands, h1, hgap, if_true, List.mem_cons] at hb
        rcases hb with hb | hb | hb
        · simp [hb]
        · rw [hb]; exact ih (g :: b1) (List.mem_cons_self _ _)
        · exact ih b (List.mem_cons_of_mem _ hb)
      · simp only [groupBands, h1, hgap, if_false, List.mem_cons] at hb
        rcases hb with hb | hb
        · simp [hb]
        · exact ih b (List.mem_cons_of_mem _ hb)

/-- Inside a band, the gap between consecutive successful frequencies never
exceeds the tolerance `fstep * 1.001`. -/
theorem groupBands_within (fstep : ℚ) :
    ∀ l : List ℚ, ∀ b ∈ groupBands fstep l,
      List.Chain' (fun a c => c - a ≤ fstep * 1.001) b
  | [], b, hb => absurd hb (by simp [groupBands])
  | [f], b, hb => by
      simp [groupBands] at hb
      simp [hb]
  | f :: g :: fs, b, hb => by
      obtain ⟨b1, bs, h1⟩ := groupBands_cons fstep g fs
      have ih := groupBands_within fstep (g :: fs)
      rw [h1] at ih
      by_cases hgap : fstep * 1.001 < g - f
      · simp only [groupBands, h1, hgap, if_true, List.mem_cons] at hb
        rcases hb with hb | hb | hb
        · simp [hb]
        · rw [hb]; exact ih (g :: b1) (List.mem_cons_self _ _)
        · exact ih b (List.mem_cons_of_mem _ hb)
      · simp only [groupBands, h1, hgap, if_false, List.mem_cons] at hb
        rcases hb with hb | hb
        · rw [hb, List.chain'_cons]
          exact ⟨le_of_not_lt hgap, ih (g :: b1) (List.mem_cons_self _ _)⟩
        · exact ih b (List.mem_cons_of_mem _ hb)

/-- Between two consecutive bands the gap from the last frequency of the
earlier band to the first of the later one always exceeds the tolerance. -/
theorem groupBands_between (fstep : ℚ) :
    ∀ l : List ℚ,
      List.Chain' (fun b c => ∀ x ∈ b.getLast?, ∀ y ∈ c.head?, fstep * 1.001 < y - x)
        (groupBands fstep l)
  | [] => by simp [groupBands]
  | [f] => by simp [groupBands]
  | f :: g :: fs => by
      obtain ⟨b1, bs, h1⟩ := groupBands_cons fstep g fs
      have ih := groupBands_between fstep (g :: fs)
      rw [h1] at ih
      by_cases hgap : fstep * 1.001 < g - f
      · simp only [groupBands, h1, hgap, if_true]
        rw [List.chain'_cons]
        refine ⟨?_, ih⟩
        intro x hx y hy
        simp at hx hy
        subst hx
        subst hy
        exact hgap
      · simp only [groupBands, h1, hgap, if_false]
        rw [List.chain'_cons'] at ih ⊢
        refine ⟨?_, ih.2⟩
        intro y hy x hx
        refine ih.1 y hy x ?_
        rw [List.getLast?_cons_cons] at hx
        exact hx

unseal Rat.add Rat.sub Rat.mul Rat.inv Rat.ofScientific in
theorem groupBandsExample :
    groupBands 1 [100, 101, 102, 110, 111] = [[100, 101, 102], [110, 111]] := by
  decide

/-- Below the stated precondition the candidate list is empty. -/
theorem candidates_eq_nil (fmin fmax fstep : ℚ) (hstep : 0 < fstep)
    (h : fmax - fmin < fstep) : candidates fmin fmax fstep = [] := by
  have hlt : (fmax - fmin) / fstep < 1 := (div_lt_one hstep).mpr h
  have hfl : ⌊(fmax - fmin) / fstep⌋ < 1 := Int.floor_lt.mpr (by exact_mod_cast hlt)
  have : ((fmax - fmin) / fstep).floor.toNat = 0 := by
    rw [ratFloor_eq]
    omega
  simp [candidates, this]

/-- C1: for `fmin < fmax` and `fstep > 0` the scan generates exactly
`floor((fmax-fmin)/fstep)` candidates, the i-th being `fmin + i*fstep`, and
`fmax` itself is never a candidate. -/
theorem scan_candidate_count (fmin fmax fstep : ℚ) (h1 : fmin < fmax) (h2 : 0 < fstep) :
    ((candidates fmin fmax fstep).length : ℤ) = ⌊(fmax - fmin) / fstep⌋ ∧
    (∀ i (hi : i < (candidates fmin fmax fstep).length),
      (candidates fmin fmax fstep).get ⟨i, hi⟩ = fmin + (i : ℚ) * fstep) ∧
    fmax ∉ candidates fmin fmax fstep := by
  have hnn : (0 : ℚ) ≤ (fmax - fmin) / fstep := div_nonneg (by linarith) h2.le
  have hfl : 0 ≤ ⌊(fmax - fmin) / fstep⌋ := Int.floor_nonneg.mpr hnn
  refine ⟨?_, ?_, ?_⟩
  · have hlen : (candidates fmin fmax fstep).length
        = ((fmax - fmin) / fstep).floor.toNat := by
      rw [candidates, List.length_map, List.length_range]
    rw [hlen, ratFloor_eq]
    exact Int.toNat_of_nonneg hfl
  · intro i hi
    simp only [candidates, List.get_eq_getElem, List.getElem_map, List.getElem_range]
  · intro hmem
    simp only [candidates, List.mem_map, List.mem_range] at hmem
    obtain ⟨i, hi, hEq⟩ := hmem
    rw [ratFloor_eq] at hi
    have hiz : (i : ℤ) < ⌊(fmax - fmin) / fstep⌋ := Int.lt_toNat.mp hi
    have hle : ((i : ℤ) + 1 : ℚ) ≤ (fmax - fmin) / fstep := by
      exact_mod_cast Int.le_floor.mp (Int.add_one_le_iff.mpr hiz)
    have hq : (i : ℚ) < (fmax - fmin) / fstep := by push_cast at hle; linarith
    have hmul : (i : ℚ) * fstep < fmax - fmin := by
      calc (i : ℚ) * fstep < ((fmax - fmin) / fstep) * fstep :=
            mul_lt_mul_of_pos_right hq h2
        _ = fmax - fmin := div_mul_cancel₀ _ (ne_of_gt h2)
    linarith [hEq]

/-- C4: the candidate sequence is strictly increasing and evenly spaced by
exactly `fstep`. -/
theorem scan_candidates_spacing (fmin fmax fstep : ℚ) (h1 : fmin < fmax) (h2 : 0 < fstep) :
    ∀ i (hi : i + 1 < (candidates fmin fmax fstep).length),
      (candidates fmin fmax fstep).get ⟨i + 1, hi⟩
          - (candidates fmin fmax fstep).get ⟨i, Nat.lt_of_succ_lt hi⟩ = fstep ∧
      (candidates fmin fmax fstep).get ⟨i, Nat.lt_of_succ_lt hi⟩
          < (candidates fmin fmax fstep).get ⟨i + 1, hi⟩ := by
  intro i hi
  simp only [candidates, List.get_eq_getElem, List.getElem_map, List.getElem_range]
  constructor
  · push_cast
    ring
  · have hlt : (i : ℚ) < (i : ℚ) + 1 := by linarith
    have hmul := mul_lt_mul_of_pos_right hlt h2
    push_cast
    linarith

/-- C3: the report partitions the successful frequencies, in generation order,
into maximal contiguous runs; a new band starts exactly when the gap between
consecutive successes exceeds `1.001 * fstep`; on `[100,101,102,110,111]` with
`fstep = 1` it yields exactly the bands `[100,101,102]` and `[110,111]`. -/
theorem report_bands_partition (fstep : ℚ) (found : List ℚ) :
    (groupBands fstep found).flatten = found ∧
    (∀ b ∈ groupBands fstep found, b ≠ []) ∧
    (∀ b ∈ groupBands fstep found, List.Chain' (fun a c => c - a ≤ fstep * 1.001) b) ∧
    List.Chain' (fun b c => ∀ x ∈ b.getLast?, ∀ y ∈ c.head?, fstep * 1.001 < y - x)
      (groupBands fstep found) ∧
    groupBands 1 [100, 101, 102, 110, 111] = [[100, 101, 102], [110, 111]] :=
  ⟨groupBands_flatten fstep found, groupBands_ne_nil fstep found,
   groupBands_within fstep found, groupBands_between fstep found,
   groupBandsExample⟩

/-- C6: a completed scan covers every candidate exactly once, in generation
order, recording for each candidate exactly the success bit of its own trial. -/
theorem scan_results_cover (pll : CrgRequest → PllOutcome) (iod fmin fmax fstep : ℚ)
    (res : List (ℚ × Bool))
    (h : scanList pll iod (candidates fmin fmax fstep) = Except.ok res) :
    res = (candidates fmin fmax fstep).map
        (fun f => (f, outcomeOk (pll (crgRequest f iod)))) ∧
    res.map Prod.fst = candidates fmin fmax fstep := by
  have hres := scanList_ok_elim pll iod _ res h
  refine ⟨hres, ?_⟩
  have hcomp : (Prod.fst ∘ fun f : ℚ => (f, outcomeOk (pll (crgRequest f iod)))) = id := rfl
  rw [hres, List.map_map, hcomp, List.map_id]

/-- C7: the scan is deterministic: two runs with identical inputs and the same
validator produce identical results, including the grouped report. -/
theorem scan_deterministic (pll : CrgRequest → PllOutcome) (iod fmin fmax fstep : ℚ)
    (r1 r2 : Except ScanError ScanReport)
    (h1 : runScan pll iod fmin fmax fstep = r1)
    (h2 : runScan pll iod fmin fmax fstep = r2) : r1 = r2 :=
  h1.symm.trans h2

/-- C8: trials are independent: in a completed scan the pair recorded at
position `i` is a function of the validator answer on the i-th candidate
alone, so two validators that agree there record the same outcome regardless
of what happens at any other candidate. -/
theorem scan_trials_independent (pll1 pll2 : CrgRequest → PllOutcome)
    (iod fmin fmax fstep : ℚ) (res1 res2 : List (ℚ × Bool)) (i : ℕ)
    (h1 : scanList pll1 iod (candidates fmin fmax fstep) = Except.ok res1)
    (h2 : scanList pll2 iod (candidates fmin fmax fstep) = Except.ok res2)
    (hi : i < (candidates fmin fmax fstep).length)
    (hagree : pll1 (crgRequest ((candidates fmin fmax fstep).get ⟨i, hi⟩) iod)
            = pll2 (crgRequest ((candidates fmin fmax fstep).get ⟨i, hi⟩) iod)) :
    res1.get? i = res2.get? i ∧
    res1.get? i = some ((candidates fmin fmax fstep).get ⟨i, hi⟩,
      outcomeOk (pll1 (crgRequest ((candidates fmin fmax fstep).get ⟨i, hi⟩) iod))) := by
  have e1 := scanList_ok_elim pll1 iod _ res1 h1
  have e2 := scanList_ok_elim pll2 iod _ res2 h2
  have hget : (candidates fmin fmax fstep).get? i
      = some ((candidates fmin fmax fstep).get ⟨i, hi⟩) := List.get?_eq_get hi
  rw [e1, e2]
  rw [List.get?_map, List.get?_map, hget]
  simp only [Option.map_some', List.get_eq_getElem] at hagree ⊢
  rw [hagree]
  exact ⟨rfl, trivial⟩

/-- C9: each trial requests exactly four output clocks from the fixed 100 MHz
reference, at `f`, `2*f`, `8*f` and the I/O-delay clock frequency (200e6 by
default), and a candidate succeeds exactly when the validator accepts that
whole four-output request. -/
theorem crg_four_outputs (f iod : ℚ) :
    (crgRequest f iod).refFreq = 100000000 ∧
    (crgRequest f iod).outputs = [f, 2 * f, 8 * f, iod] ∧
    (crgRequest f iod).outputs.length = 4 ∧
    iodelay_clk_freq_default = 200000000 ∧
    ∀ pll : CrgRequest → PllOutcome,
      (scanStep pll iod f = Except.ok true ↔ pll (crgRequest f iod) = PllOutcome.ok) := by
  refine ⟨rfl, rfl, rfl, rfl, fun pll => ?_⟩
  constructor
  · intro h
    cases hp : pll (crgRequest f iod) with
    | ok => rfl
    | valueError msg =>
        cases hc : occursIn noPllMsg msg with
        | true => simp [scanStep, hp, hc] at h
        | false => simp [scanStep, hp, hc] at h
    | otherError msg => simp [scanStep, hp] at h
  · intro h
    simp [scanStep, h]

/-- C2: a candidate whose validation fails with the distinguished "no PLL
config found" condition is recorded as a failure and the scan continues,
finishing with exit code 0; any other error aborts the scan immediately,
propagating exactly that error; and a step aborts precisely on such
unexpected outcomes. -/
theorem scan_error_handling (pll : CrgRequest → PllOutcome) (iod fmin fmax fstep : ℚ) :
    ((∀ f ∈ candidates fmin fmax fstep, expectedOutcome (pll (crgRequest f iod)) = true) →
      ∃ rep : ScanReport,
        runScan pll iod fmin fmax fstep = Except.ok rep ∧
        exitCode (runScan pll iod fmin fmax fstep) = 0 ∧
        ∀ f ∈ candidates fmin fmax fstep,
          pll (crgRequest f iod) ≠ PllOutcome.ok → (f, false) ∈ rep.results) ∧
    (∀ (l1 : List ℚ) (f : ℚ) (l2 : List ℚ) (e : ScanError),
      candidates fmin fmax fstep = l1 ++ f :: l2 →
      (∀ g ∈ l1, expectedOutcome (pll (crgRequest g iod)) = true) →
      scanStep pll iod f = Except.error e →
      runScan pll iod fmin fmax fstep = Except.error e ∧
      exitCode (runScan pll iod fmin fmax fstep) = 1) ∧
    (∀ f : ℚ, (∃ e, scanStep pll iod f = Except.error e) ↔
      expectedOutcome (pll (crgRequest f iod)) = false) := by
  refine ⟨?_, ?_, fun f => scanStep_error_iff pll iod f⟩
  · intro hall
    have hscan := scanList_ok_of_expected pll iod (candidates fmin fmax fstep) hall
    refine ⟨ScanReport.mk
        ((candidates fmin fmax fstep).map
          (fun f => (f, outcomeOk (pll (crgRequest f iod)))))
        (groupBands fstep (foundOf ((candidates fmin fmax fstep).map
          (fun f => (f, outcomeOk (pll (crgRequest f iod))))))), ?_, ?_, ?_⟩
    · simp only [runScan, hscan]
    · simp only [exitCode, runScan, hscan]
    · intro f hf hne
      have hbit : outcomeOk (pll (crgRequest f iod)) = false := by
        cases hp : pll (crgRequest f iod) with
        | ok => exact absurd hp hne
        | valueError msg => simp [outcomeOk]
        | otherError msg => simp [outcomeOk]
      exact List.mem_map.mpr ⟨f, hf, by rw [hbit]⟩
  · intro l1 f l2 e hsplit hexp hferr
    have habort := scanList_error_append pll iod l1 f l2 e hexp hferr
    rw [← hsplit] at habort
    exact ⟨by simp [runScan, habort], by simp [runScan, habort, exitCode]⟩

/-- C10: outside the stated precondition the scan is still total: with
`fstep > 0` and an empty range it performs zero trials, raises no error,
produces the empty report and exits with code 0. -/
theorem scan_empty_range_safe (pll : CrgRequest → PllOutcome) (iod fmin fmax fstep : ℚ)
    (hstep : 0 < fstep) (h : fmax ≤ fmin ∨ fmax - fmin < fstep) :
    candidates fmin fmax fstep = [] ∧
    runScan pll iod fmin fmax fstep = Except.ok { results := [], bands := [] } ∧
    exitCode (runScan pll iod fmin fmax fstep) = 0 := by
  have hlt : fmax - fmin < fstep := by
    rcases h with h | h
    · linarith
    · exact h
  have hc := candidates_eq_nil fmin fmax fstep hstep hlt
  refine ⟨hc, ?_, ?_⟩ <;>
    simp [runScan, hc, scanList, foundOf, groupBands, exitCode]

unseal Rat.add Rat.sub Rat.mul Rat.inv Rat.ofScientific in
/-- C5: with `fmin=40e6, fmax=60e6, fstep=5e6` and a validator that accepts a
request exactly when its system clock lies in `[45e6, 55e6]`, the scan tries
exactly the candidates 40e6, 45e6, 50e6, 55e6, records fail, pass, pass, pass,
and reports the single band from 45e6 to 55e6. -/
theorem scan_scenario_interval :
    candidates 40000000 60000000 5000000
      = [40000000, 45000000, 50000000, 55000000] ∧
    runScan (intervalPll 45000000 55000000) iodelay_clk_freq_default
        40000000 60000000 5000000
      = Except.ok (ScanReport.mk
          [(40000000, false), (45000000, true), (50000000, true), (55000000, true)]
          [[45000000, 50000000, 55000000]]) :=
  ⟨by decide, by decide⟩

unseal Rat.add Rat.sub Rat.mul Rat.inv Rat.ofScientific in
/-- Witness instantiating the candidate-count theorem at fmin 0, fmax 10,
fstep 3. -/
theorem scan_candidate_count_witness :
    ((candidates 0 10 3).length : ℤ) = ⌊((10 : ℚ) - 0) / 3⌋ ∧
    (10 : ℚ) ∉ candidates 0 10 3 :=
  ⟨(scan_candidate_count 0 10 3 (by decide) (by decide)).1,
   (scan_candidate_count 0 10 3 (by decide) (by decide)).2.2⟩

unseal Rat.add Rat.sub Rat.mul Rat.inv Rat.ofScientific in
/-- Witness instantiating the error-handling theorem: the interval validator
scan finishes with exit code 0, while a validator that always raises a
non-`ValueError` aborts the scan with exactly that error. -/
theorem scan_error_handling_witness :
    exitCode (runScan (intervalPll 45000000 55000000) 200000000
        40000000 60000000 5000000) = 0 ∧
    runScan pllFatal 200000000 0 10 3
      = Except.error (ScanError.otherErr boomMsg) := by
  constructor
  · obtain ⟨rep, hrep, hexit, hmem⟩ :=
      (scan_error_handling (intervalPll 45000000 55000000) 200000000
        40000000 60000000 5000000).1 (by decide)
    exact hexit
  · exact ((scan_error_handling pllFatal 200000000 0 10 3).2.1 [] 0 [3, 6]
      (ScanError.otherErr boomMsg) (by decide) (by decide) (by decide)).1

/-- Witness instantiating the report-partition theorem on the example list of
the spec. -/
theorem report_bands_partition_witness :
    groupBands 1 [100, 101, 102, 110, 111] = [[100, 101, 102], [110, 111]] ∧
    (groupBands 1 [100, 101, 102, 110, 111]).flatten = [100, 101, 102, 110, 111] :=
  ⟨(report_bands_partition 1 [100, 101, 102, 110, 111]).2.2.2.2,
   (report_bands_partition 1 [100, 101, 102, 110, 111]).1⟩

unseal Rat.add Rat.sub Rat.mul Rat.inv Rat.ofScientific in
/-- Witness instantiating the spacing theorem at fmin 0, fmax 10, fstep 3,
position 0. -/
theorem scan_candidates_spacing_witness :
    (candidates 0 10 3).get ⟨1, by decide⟩ - (candidates 0 10 3).get ⟨0, by decide⟩ = 3 ∧
    (candidates 0 10 3).get ⟨0, by decide⟩ < (candidates 0 10 3).get ⟨1, by decide⟩ :=
  scan_candidates_spacing 0 10 3 (by decide) (by decide) 0 (by decide)

unseal Rat.add Rat.sub Rat.mul Rat.inv Rat.ofScientific in
/-- Witness instantiating the coverage theorem with the always-accepting
validator on fmin 0, fmax 10, fstep 3. -/
theorem scan_results_cover_witness :
    ([((0 : ℚ), true), (3, true), (6, true)] : List (ℚ × Bool)).map Prod.fst
      = candidates 0 10 3 :=
  (scan_results_cover pllAllOk 200000000 0 10 3 [(0, true), (3, true), (6, true)]
    (by decide)).2

unseal Rat.add Rat.sub Rat.mul Rat.inv Rat.ofScientific in
/-- Witness instantiating the determinism theorem: the concrete scan value is
the unique result of running the scan with these inputs. -/
theorem scan_deterministic_witness :
    Except.ok (ScanReport.mk [((0 : ℚ), true), (3, true), (6, true)] [[(0 : ℚ), 3, 6]])
      = runScan pllAllOk 200000000 0 10 3 :=
  scan_deterministic pllAllOk 200000000 0 10 3 _ _ (by decide) rfl

unseal Rat.add Rat.sub Rat.mul Rat.inv Rat.ofScientific in
/-- Witness instantiating the independence theorem at position 1 with two
validators that agree on the candidate 3 but differ on the candidate 0. -/
theorem scan_trials_independent_witness :
    ([((0 : ℚ), true), (3, true), (6, true)] : List (ℚ × Bool)).get? 1
      = ([((0 : ℚ), false), (3, true), (6, true)] : List (ℚ × Bool)).get? 1 :=
  (scan_trials_independent pllAllOk pllRejectZero 200000000 0 10 3
    [(0, true), (3, true), (6, true)] [(0, false), (3, true), (6, true)] 1
    (by decide) (by decide) (by decide) (by decide)).1

unseal Rat.add Rat.sub Rat.mul Rat.inv Rat.ofScientific in
/-- Witness instantiating the clock-request theorem at a 7 Hz system clock. -/
theorem crg_four_outputs_witness :
    (crgRequest 7 200000000).outputs = [7, 14, 56, 200000000] :=
  (crg_four_outputs 7 200000000).2.1

unseal Rat.add Rat.sub Rat.mul Rat.inv Rat.ofScientific in
/-- Witness instantiating the empty-range theorem at fmin 5, fmax 6, fstep 2. -/
theorem scan_empty_range_safe_witness :
    candidates 5 6 2 = [] ∧ exitCode (runScan pllAllOk 200000000 5 6 2) = 0 := by
  obtain ⟨hc, hrun, hexit⟩ :=
    scan_empty_range_safe pllAllOk 200000000 5 6 2 (by decide) (Or.inr (by decide))
  exact ⟨hc, hexit⟩

end PllScan
